import Mathlib

/-!
Verification of the MassImageCompressor packing core (`MediaProcessor.py`).

The repository selects a random subset of images whose estimated compressed
total fits a byte budget (`choose_random_subset_by_size`), then re-encodes the
selection and backfills from the rejected items against the same budget using
actual encoded sizes (`process_images`), and finally writes the surviving
byte strings under collision-free names.

The shallow embedding below mirrors those loops.  Randomness (the two
`random.shuffle` calls) is modelled by quantifying over the already-shuffled
input lists.  Python floats are modelled by rationals; `int(x)` on the
non-negative products that occur here is the floor.  The JPEG codec is an
uninterpreted function `encode : PathStr → Option (List ℕ)` (`none` models the
`except`-caught failure, `some data` the returned byte string).
-/

abbrev PathStr := String

/-- `compression_factor = max(0.01, float(quality) / 300.0)` from
`choose_random_subset_by_size` (line 78). -/
def compressionFactor (quality : ℚ) : ℚ :=
  max (1 / 100) (quality / 300)

/-- `max_bytes = int(max_dir_size_gb * 1024 ** 3)` (lines 79 and 141). -/
def budgetBytes (maxDirSizeGb : ℚ) : ℕ :=
  (⌊maxDirSizeGb * 1073741824⌋).toNat

/-- `estimated_size = int(orig_size * compression_factor)` (line 101). -/
def estSize (f : ℚ) (origSize : ℕ) : ℕ :=
  (⌊(origSize : ℚ) * f⌋).toNat

/-- The selection loop of `choose_random_subset_by_size` (lines 100-112):
walk the shuffled `(path, orig_size)` list keeping a running estimated total;
an item that would overflow the budget goes to `remaining`, otherwise it is
appended to `chosen`, and the loop breaks once the total reaches the budget
(leaving the rest of the list unvisited). -/
def selLoop (f : ℚ) (maxB : ℕ) :
    List (PathStr × ℕ) → List (PathStr × ℕ) → List (PathStr × ℕ) → ℕ →
    List (PathStr × ℕ) × List (PathStr × ℕ) × ℕ
  | [], ch, rem, tot => (ch, rem, tot)
  | (p, s) :: rest, ch, rem, tot =>
    if tot + estSize f s > maxB then
      selLoop f maxB rest ch (rem ++ [(p, estSize f s)]) tot
    else if tot + estSize f s ≥ maxB then
      (ch ++ [(p, estSize f s)], rem, tot + estSize f s)
    else
      selLoop f maxB rest (ch ++ [(p, estSize f s)]) rem (tot + estSize f s)

/-- The post-pass of `choose_random_subset_by_size` (lines 114-117): every
item of the original list whose path occurs in neither `chosen` nor the
growing `remaining` is appended to `remaining`. -/
def postPass (f : ℚ) (ch : List (PathStr × ℕ)) :
    List (PathStr × ℕ) → List (PathStr × ℕ) → List (PathStr × ℕ)
  | [], rem => rem
  | (p, s) :: rest, rem =>
    if ch.any (fun y => y.1 == p) || rem.any (fun y => y.1 == p) then
      postPass f ch rest rem
    else
      postPass f ch rest (rem ++ [(p, estSize f s)])

/-- `choose_random_subset_by_size` (lines 95-122) after the shuffle: the
input `items` is the shuffled `(path, orig_size)` list.  Returns the
`(chosen_paths, remaining_paths)` pair, both carrying estimated sizes. -/
def select (f : ℚ) (maxB : ℕ) (items : List (PathStr × ℕ)) :
    List (PathStr × ℕ) × List (PathStr × ℕ) :=
  ((selLoop f maxB items [] [] 0).1,
    postPass f (selLoop f maxB items [] [] 0).1 items (selLoop f maxB items [] [] 0).2.1)

/-- `choose_random_subset_by_size` with the factor and budget computed from
the run parameters, as in the source. -/
def chooseRandomSubsetBySize (maxDirSizeGb quality : ℚ)
    (shuffledItems : List (PathStr × ℕ)) :
    List (PathStr × ℕ) × List (PathStr × ℕ) :=
  select (compressionFactor quality) (budgetBytes maxDirSizeGb) shuffledItems

/-- Size-level image of the selection loop (proof infrastructure): the loop
of `choose_random_subset_by_size` acts on the estimated sizes only, so it
factors through the list of estimated sizes. -/
def selLoopE (maxB : ℕ) : List ℕ → List ℕ → List ℕ → ℕ → List ℕ × List ℕ × ℕ
  | [], ch, rem, tot => (ch, rem, tot)
  | e :: rest, ch, rem, tot =>
    if tot + e > maxB then selLoopE maxB rest ch (rem ++ [e]) tot
    else if tot + e ≥ maxB then (ch ++ [e], rem, tot + e)
    else selLoopE maxB rest (ch ++ [e]) rem (tot + e)

/-- A concrete ten-item batch of 10MB files, used to witness the packing
scenario of the specification. -/
def tenItems : List (PathStr × ℕ) :=
  [("p0", 10485760), ("p1", 10485760), ("p2", 10485760), ("p3", 10485760),
    ("p4", 10485760), ("p5", 10485760), ("p6", 10485760), ("p7", 10485760),
    ("p8", 10485760), ("p9", 10485760)]

/-- A concrete suffix-naming scheme (used to witness the writer): distinct
suffixes give distinct strings. -/
def bName (n : ℕ) : String :=
  String.mk (List.replicate n 'b')

/-- One verifier pass of `process_images` (Pass A lines 149-174, Pass B lines
180-198; both passes run this same loop body).  State: committed
`(path, bytes)` list `acc`, running actual total `tot`, and the list `log` of
paths on which the codec was invoked.  Per item: stop when the total already
reached the budget; skip without encoding when the estimated size overflows
the residual budget; invoke the codec (a `none` result is the caught encode
failure: skip); skip when the actual size overflows; otherwise commit and
break early when the budget is hit exactly. -/
def packLoop (encode : PathStr → Option (List ℕ)) (maxB : ℕ) :
    List (PathStr × ℕ) → List (PathStr × List ℕ) → ℕ → List PathStr →
    List (PathStr × List ℕ) × ℕ × List PathStr
  | [], acc, tot, log => (acc, tot, log)
  | (p, e) :: rest, acc, tot, log =>
    if tot ≥ maxB then (acc, tot, log)
    else if tot + e > maxB then packLoop encode maxB rest acc tot log
    else
      match encode p with
      | none => packLoop encode maxB rest acc tot (log ++ [p])
      | some data =>
        if tot + data.length > maxB then
          packLoop encode maxB rest acc tot (log ++ [p])
        else if tot + data.length ≥ maxB then
          (acc ++ [(p, data)], tot + data.length, log ++ [p])
        else
          packLoop encode maxB rest (acc ++ [(p, data)]) (tot + data.length)
            (log ++ [p])

/-- The packing stage of `process_images` (lines 135-198): early return when
`chosen` is empty (line 137), Pass A over `chosen` in selector order, then
Pass B over the reshuffled `remaining` if and only if the actual total is
still below the budget and `remaining` is non-empty (line 177).
`remaining` here is the already-reshuffled list. -/
def processPack (encode : PathStr → Option (List ℕ)) (maxB : ℕ)
    (chosen remaining : List (PathStr × ℕ)) :
    List (PathStr × List ℕ) × ℕ × List PathStr :=
  if chosen.isEmpty then ([], 0, [])
  else
    if (packLoop encode maxB chosen [] 0 []).2.1 < maxB ∧ ¬ remaining.isEmpty then
      packLoop encode maxB remaining (packLoop encode maxB chosen [] 0 []).1
        (packLoop encode maxB chosen [] 0 []).2.1 (packLoop encode maxB chosen [] 0 []).2.2
    else packLoop encode maxB chosen [] 0 []

/-- Modelled from the spec (§4.3 Verifier/Packer): one pass of the "same
admit/skip logic" with only the top-of-loop stop check ("if running
actual-total already ≥ budget, stop"), with no mid-loop break after a commit. -/
def specPass (encode : PathStr → Option (List ℕ)) (maxB : ℕ) :
    List (PathStr × ℕ) → List (PathStr × List ℕ) → ℕ → List PathStr →
    List (PathStr × List ℕ) × ℕ × List PathStr
  | [], acc, tot, log => (acc, tot, log)
  | (p, e) :: rest, acc, tot, log =>
    if tot ≥ maxB then (acc, tot, log)
    else if tot + e > maxB then specPass encode maxB rest acc tot log
    else
      match encode p with
      | none => specPass encode maxB rest acc tot (log ++ [p])
      | some data =>
        if tot + data.length > maxB then
          specPass encode maxB rest acc tot (log ++ [p])
        else
          specPass encode maxB rest (acc ++ [(p, data)]) (tot + data.length)
            (log ++ [p])

/-- Modelled from the spec (§4.3): Pass A over `chosen` in selector order,
then Pass B over the reshuffled `remaining` iff the running actual total is
below the budget and `remaining` is non-empty, with the same admit/skip
logic against the residual budget. -/
def reconcileSpec (encode : PathStr → Option (List ℕ)) (maxB : ℕ)
    (chosen remaining : List (PathStr × ℕ)) :
    List (PathStr × List ℕ) × ℕ × List PathStr :=
  if (specPass encode maxB chosen [] 0 []).2.1 < maxB ∧ ¬ remaining.isEmpty then
    specPass encode maxB remaining (specPass encode maxB chosen [] 0 []).1
      (specPass encode maxB chosen [] 0 []).2.1 (specPass encode maxB chosen [] 0 []).2.2
  else specPass encode maxB chosen [] 0 []

/-- Sum of the estimated sizes stored in a selection list. -/
def sumSnd (l : List (PathStr × ℕ)) : ℕ :=
  (l.map Prod.snd).sum

/-- Sum of the lengths of the committed encoded byte strings. -/
def sumBytes (l : List (PathStr × List ℕ)) : ℕ :=
  (l.map (fun x => x.2.length)).sum

/-- Collision resolution of the writer (`process_images` lines 220-228): if
the candidate name already exists, try suffixes `1, 2, ...` until a free one
is found.  `mk n` abstracts the string `f"{base_name}_{n}{ext}"`.  The
source's `while` loop always terminates because the file system is finite;
here the search is bounded by `fs.length + 1`, which is exhaustive whenever
`mk` is injective (see `resolveName_not_mem`). -/
def resolveName (fs : List String) (cand : String) (mk : ℕ → String) : String :=
  if fs.contains cand then
    match (List.range (fs.length + 1)).find? (fun k => !(fs.contains (mk (k + 1)))) with
    | some k => mk (k + 1)
    | none => cand
  else cand

/-- The writer loop of `process_images` (lines 215-239): each item carries
its generated candidate name and its suffix scheme; the resolved name is
written, which makes it exist for the following items.  Returns the list of
written names. -/
def writeLoop : List (String × (ℕ → String)) → List String → List String
  | [], _ => []
  | (cand, mk) :: rest, fs =>
    resolveName fs cand mk :: writeLoop rest (resolveName fs cand mk :: fs)

theorem sumSnd_append (l₁ l₂ : List (PathStr × ℕ)) :
    sumSnd (l₁ ++ l₂) = sumSnd l₁ + sumSnd l₂ := by
  simp [sumSnd]

theorem sumBytes_append (l₁ l₂ : List (PathStr × List ℕ)) :
    sumBytes (l₁ ++ l₂) = sumBytes l₁ + sumBytes l₂ := by
  simp [sumBytes]

theorem sumBytes_nil : sumBytes [] = 0 := rfl

theorem sumBytes_single (p : PathStr) (data : List ℕ) :
    sumBytes [(p, data)] = data.length := by
  simp [sumBytes]

/-- Selection-loop invariant: the running estimated total equals the sum of
the chosen estimates and never exceeds the budget. -/
theorem selLoop_sum (f : ℚ) (maxB : ℕ) (l : List (PathStr × ℕ)) :
    ∀ (ch rem : List (PathStr × ℕ)) (tot : ℕ), tot = sumSnd ch → tot ≤ maxB →
      (selLoop f maxB l ch rem tot).2.2 = sumSnd (selLoop f maxB l ch rem tot).1 ∧
      (selLoop f maxB l ch rem tot).2.2 ≤ maxB := by
  induction l with
  | nil =>
    intro ch rem tot h1 h2
    exact ⟨h1, h2⟩
  | cons x rest ih =>
    obtain ⟨p, s⟩ := x
    intro ch rem tot h1 h2
    simp only [selLoop]
    split
    · exact ih ch _ tot h1 h2
    · rename_i hgt
      split
    -- break case: the new total is the chosen sum and still fits
      · refine ⟨by simp [sumSnd_append, sumSnd, h1], ?_⟩
        show tot + estSize f s ≤ maxB
        omega
      · exact ih _ rem (tot + estSize f s)
          (by simp [sumSnd_append, sumSnd, h1]) (by omega)

/-- C2: for every shuffled input list and every budget, the sum of the
estimated sizes over the Selector's `chosen` list is at most the budget. -/
theorem budget_respect_estimated (f : ℚ) (maxB : ℕ) (items : List (PathStr × ℕ)) :
    sumSnd (select f maxB items).1 ≤ maxB := by
  have h := selLoop_sum f maxB items [] [] 0 rfl (Nat.zero_le _)
  have h1 := h.1
  have h2 := h.2
  simp only [select]
  omega

/-- Packing-loop invariant: the running actual total never exceeds the
budget once it starts below it. -/
theorem packLoop_total_le (encode : PathStr → Option (List ℕ)) (maxB : ℕ)
    (l : List (PathStr × ℕ)) :
    ∀ (acc : List (PathStr × List ℕ)) (tot : ℕ) (log : List PathStr), tot ≤ maxB →
      (packLoop encode maxB l acc tot log).2.1 ≤ maxB := by
  induction l with
  | nil => intro acc tot log h; exact h
  | cons x rest ih =>
    obtain ⟨p, e⟩ := x
    intro acc tot log h
    simp only [packLoop]
    split
    · exact h
    · split
      · exact ih acc tot log h
      · rename_i hstop hskip
        cases hdata : encode p with
        | none => exact ih acc tot _ h
        | some data =>
          simp only []
          split
          · exact ih acc tot _ h
          · rename_i hbig
            split
            · show tot + data.length ≤ maxB
              omega
            · exact ih _ (tot + data.length) _ (by omega)

/-- Packing-loop accounting: the increase of the running actual total is
exactly the total byte length of the newly committed items. -/
theorem packLoop_total_eq (encode : PathStr → Option (List ℕ)) (maxB : ℕ)
    (l : List (PathStr × ℕ)) :
    ∀ (acc : List (PathStr × List ℕ)) (tot : ℕ) (log : List PathStr),
      (packLoop encode maxB l acc tot log).2.1 + sumBytes acc =
        tot + sumBytes (packLoop encode maxB l acc tot log).1 := by
  induction l with
  | nil => intro acc tot log; rfl
  | cons x rest ih =>
    obtain ⟨p, e⟩ := x
    intro acc tot log
    simp only [packLoop]
    split
    · rfl
    · split
      · exact ih acc tot log
      · cases hdata : encode p with
        | none => exact ih acc tot _
        | some data =>
          simp only []
          split
          · exact ih acc tot _
          · split
            · show (tot + data.length) + sumBytes acc = tot + sumBytes (acc ++ [(p, data)])
              rw [sumBytes_append, sumBytes_single]
              omega
            · have h := ih (acc ++ [(p, data)]) (tot + data.length) (log ++ [p])
              rw [sumBytes_append, sumBytes_single] at h
              omega

/-- C1: over every run of the packing stage (Pass A plus Pass B backfill),
the sum of the lengths of the actual encoded byte strings committed to the
final output set is at most `budget_bytes = int(max_dir_size_gb * 2^30)`,
for every codec behaviour, i.e. however far the estimates diverge from the
actual encoded sizes. -/
theorem budget_respect_actual (encode : PathStr → Option (List ℕ)) (gb : ℚ)
    (chosen remaining : List (PathStr × ℕ)) :
    sumBytes (processPack encode (budgetBytes gb) chosen remaining).1 ≤ budgetBytes gb := by
  unfold processPack
  cases hc : chosen.isEmpty
  · simp only [Bool.false_eq_true, if_false]
    have ha1 := packLoop_total_le encode (budgetBytes gb) chosen [] 0 [] (Nat.zero_le _)
    have ha2 := packLoop_total_eq encode (budgetBytes gb) chosen [] 0 []
    split
    · rename_i hb
      have hb1 := packLoop_total_le encode (budgetBytes gb) remaining
        (packLoop encode (budgetBytes gb) chosen [] 0 []).1
        (packLoop encode (budgetBytes gb) chosen [] 0 []).2.1
        (packLoop encode (budgetBytes gb) chosen [] 0 []).2.2 ha1
      have hb2 := packLoop_total_eq encode (budgetBytes gb) remaining
        (packLoop encode (budgetBytes gb) chosen [] 0 []).1
        (packLoop encode (budgetBytes gb) chosen [] 0 []).2.1
        (packLoop encode (budgetBytes gb) chosen [] 0 []).2.2
      rw [sumBytes_nil] at ha2
      omega
    · rw [sumBytes_nil] at ha2
      omega
  · simp [sumBytes]

/-- C10: when the Selector returns an empty `chosen` list, `process_images`
returns immediately: no item is committed, the codec is never invoked (empty
attempt log), and Pass B is never attempted over `remaining`, even when
`remaining` is non-empty and the budget is positive. -/
theorem empty_chosen_early_return (encode : PathStr → Option (List ℕ)) (maxB : ℕ)
    (remaining : List (PathStr × ℕ)) :
    processPack encode maxB [] remaining = ([], 0, []) ∧
    writeLoop [] [] = [] := by
  exact ⟨rfl, rfl⟩

/-- A pass whose running total already reached the budget does nothing. -/
theorem packLoop_stop (encode : PathStr → Option (List ℕ)) (maxB : ℕ)
    (l : List (PathStr × ℕ)) (acc : List (PathStr × List ℕ)) (tot : ℕ)
    (log : List PathStr) (h : tot ≥ maxB) :
    packLoop encode maxB l acc tot log = (acc, tot, log) := by
  cases l with
  | nil => rfl
  | cons x rest =>
    obtain ⟨p, e⟩ := x
    simp [packLoop, if_pos h]

/-- The committed list and the running total of a pass do not depend on the
attempt log. -/
theorem packLoop_dropLog (encode : PathStr → Option (List ℕ)) (maxB : ℕ)
    (l : List (PathStr × ℕ)) :
    ∀ (acc : List (PathStr × List ℕ)) (tot : ℕ) (log₁ log₂ : List PathStr),
      (packLoop encode maxB l acc tot log₁).1 = (packLoop encode maxB l acc tot log₂).1 ∧
      (packLoop encode maxB l acc tot log₁).2.1 = (packLoop encode maxB l acc tot log₂).2.1 := by
  induction l with
  | nil => intro acc tot log₁ log₂; exact ⟨rfl, rfl⟩
  | cons x rest ih =>
    obtain ⟨p, e⟩ := x
    intro acc tot log₁ log₂
    simp only [packLoop]
    split
    · exact ⟨rfl, rfl⟩
    · split
      · exact ih acc tot log₁ log₂
      · cases hdata : encode p with
        | none => exact ih acc tot _ _
        | some data =>
          simp only []
          split
          · exact ih acc tot _ _
          · split
            · exact ⟨rfl, rfl⟩
            · exact ih _ _ _ _

/-- C6: an encode failure (`none`) on an item during either pass is
non-fatal: the item is skipped, the committed output and the running actual
total are exactly those of the run without that item, and processing
continues with the remaining items. -/
theorem encode_failure_nonfatal (encode : PathStr → Option (List ℕ)) (maxB : ℕ)
    (p : PathStr) (e : ℕ) (rest : List (PathStr × ℕ))
    (acc : List (PathStr × List ℕ)) (tot : ℕ) (log : List PathStr)
    (h : encode p = none) :
    (packLoop encode maxB ((p, e) :: rest) acc tot log).1 =
      (packLoop encode maxB rest acc tot log).1 ∧
    (packLoop encode maxB ((p, e) :: rest) acc tot log).2.1 =
      (packLoop encode maxB rest acc tot log).2.1 := by
  by_cases hstop : tot ≥ maxB
  · rw [packLoop_stop encode maxB _ acc tot log hstop,
      packLoop_stop encode maxB rest acc tot log hstop]
    exact ⟨rfl, rfl⟩
  · simp only [packLoop, if_neg hstop]
    by_cases hskip : tot + e > maxB
    · simp only [if_pos hskip]
      exact ⟨trivial, trivial⟩
    · simp only [if_neg hskip, h]
      exact packLoop_dropLog encode maxB rest acc tot _ _

/-- Witness for C6 at a concrete failing codec and batch. -/
theorem encode_failure_nonfatal_witness :
    (fun _ => (none : Option (List ℕ))) "a" = none ∧
    ((packLoop (fun _ => (none : Option (List ℕ))) 10 [("a", 1), ("b", 2)] [] 0 []).1 =
        (packLoop (fun _ => (none : Option (List ℕ))) 10 [("b", 2)] [] 0 []).1 ∧
      (packLoop (fun _ => (none : Option (List ℕ))) 10 [("a", 1), ("b", 2)] [] 0 []).2.1 =
        (packLoop (fun _ => (none : Option (List ℕ))) 10 [("b", 2)] [] 0 []).2.1) :=
  ⟨rfl, encode_failure_nonfatal (fun _ => none) 10 "a" 1 [("b", 2)] [] 0 [] rfl⟩

/-- C7: the compression factor is `max(0.01, quality / 300)`; it is monotone
in the quality parameter and at least `0.01` for every quality input. -/
theorem compression_factor_monotone (q₁ q₂ : ℚ) (h : q₁ ≤ q₂) :
    compressionFactor q₁ ≤ compressionFactor q₂ ∧
    (1 / 100 : ℚ) ≤ compressionFactor q₁ ∧
    (1 / 100 : ℚ) ≤ compressionFactor q₂ := by
  refine ⟨?_, le_max_left _ _, le_max_left _ _⟩
  refine max_le_max le_rfl ?_
  linarith

/-- Witness for C7 at concrete qualities 15 and 75. -/
theorem compression_factor_monotone_witness :
    (15 : ℚ) ≤ 75 ∧
    (compressionFactor 15 ≤ compressionFactor 75 ∧
      (1 / 100 : ℚ) ≤ compressionFactor 15 ∧
      (1 / 100 : ℚ) ≤ compressionFactor 75) :=
  ⟨by decide, compression_factor_monotone 15 75 (by decide)⟩

/-- The spec-worded pass also does nothing once the total reached the budget. -/
theorem specPass_stop (encode : PathStr → Option (List ℕ)) (maxB : ℕ)
    (l : List (PathStr × ℕ)) (acc : List (PathStr × List ℕ)) (tot : ℕ)
    (log : List PathStr) (h : tot ≥ maxB) :
    specPass encode maxB l acc tot log = (acc, tot, log) := by
  cases l with
  | nil => rfl
  | cons x rest =>
    obtain ⟨p, e⟩ := x
    simp [specPass, if_pos h]

/-- The source's pass (with its mid-loop break after a commit that hits the
budget) computes the same result as the spec-worded pass (which re-checks at
the top of the next iteration instead). -/
theorem packLoop_eq_specPass (encode : PathStr → Option (List ℕ)) (maxB : ℕ)
    (l : List (PathStr × ℕ)) :
    ∀ (acc : List (PathStr × List ℕ)) (tot : ℕ) (log : List PathStr),
      packLoop encode maxB l acc tot log = specPass encode maxB l acc tot log := by
  induction l with
  | nil => intro acc tot log; rfl
  | cons x rest ih =>
    obtain ⟨p, e⟩ := x
    intro acc tot log
    simp only [packLoop, specPass]
    split
    · rfl
    · split
      · exact ih acc tot log
      · cases hdata : encode p with
        | none => exact ih acc tot _
        | some data =>
          simp only []
          split
          · exact ih acc tot _
          · split
            · rename_i hge
              rw [specPass_stop encode maxB rest _ _ _ hge]
            · exact ih _ _ _

/-- C5: whenever the packing stage actually runs (the Selector's `chosen`
list is non-empty), `process_images` is exactly the Verifier described in
the spec: Pass A iterates `chosen` in selector order with stop / estimated
skip / actual skip / commit, and Pass B runs if and only if the running
actual total is below the budget and `remaining` is non-empty, applying the
same admit/skip logic (the reshuffle is modelled by quantifying over the
already-permuted `remaining` list). -/
theorem verifier_passes_refinement (encode : PathStr → Option (List ℕ)) (maxB : ℕ)
    (chosen remaining : List (PathStr × ℕ)) (h : chosen ≠ []) :
    processPack encode maxB chosen remaining =
      reconcileSpec encode maxB chosen remaining := by
  have hne : chosen.isEmpty = false := by
    cases chosen with
    | nil => exact absurd rfl h
    | cons x rest => rfl
  unfold processPack reconcileSpec
  rw [hne]
  simp only [Bool.false_eq_true, if_false,
    packLoop_eq_specPass encode maxB chosen [] 0 [],
    packLoop_eq_specPass encode maxB remaining]

/-- Witness for C5 at a concrete non-empty `chosen`, non-empty `remaining`
and a codec returning two bytes per item. -/
theorem verifier_passes_refinement_witness :
    ([("a", 1)] : List (PathStr × ℕ)) ≠ [] ∧
    processPack (fun _ => some [7, 7]) 10 [("a", 1)] [("b", 3)] =
      reconcileSpec (fun _ => some [7, 7]) 10 [("a", 1)] [("b", 3)] :=
  ⟨by decide, verifier_passes_refinement (fun _ => some [7, 7]) 10 [("a", 1)] [("b", 3)]
    (by decide)⟩

/-- Structure of a selection-loop run: the input list splits into a visited
prefix `v` and an unvisited suffix `t` (non-empty only under the early
break), and the paths of the produced `chosen` and `remaining` lists are a
permutation of the accumulators' paths plus the visited paths. -/
theorem selLoop_split (f : ℚ) (maxB : ℕ) (l : List (PathStr × ℕ)) :
    ∀ (ch rem : List (PathStr × ℕ)) (tot : ℕ),
      ∃ v t : List (PathStr × ℕ), l = v ++ t ∧
        ((selLoop f maxB l ch rem tot).1.map Prod.fst ++
            (selLoop f maxB l ch rem tot).2.1.map Prod.fst).Perm
          (ch.map Prod.fst ++ rem.map Prod.fst ++ v.map Prod.fst) := by
  induction l with
  | nil =>
    intro ch rem tot
    exact ⟨[], [], rfl, by simp [selLoop]⟩
  | cons x rest ih =>
    obtain ⟨p, s⟩ := x
    intro ch rem tot
    simp only [selLoop]
    split
    · obtain ⟨v, t, hvt, hperm⟩ := ih ch (rem ++ [(p, estSize f s)]) tot
      refine ⟨(p, s) :: v, t, by simp [hvt], ?_⟩
      refine hperm.trans ?_
      simp [List.append_assoc]
    · split
      · refine ⟨[(p, s)], rest, rfl, ?_⟩
        simp only [List.map_append, List.map_cons, List.map_nil, List.append_assoc,
          List.singleton_append, List.append_nil]
        exact (List.perm_append_singleton p _).symm.append_left (ch.map Prod.fst)
      · obtain ⟨v, t, hvt, hperm⟩ := ih (ch ++ [(p, estSize f s)]) rem (tot + estSize f s)
        refine ⟨(p, s) :: v, t, by simp [hvt], ?_⟩
        refine hperm.trans ?_
        simp only [List.map_append, List.map_cons, List.map_nil, List.append_assoc,
          List.singleton_append]
        exact List.perm_middle.symm.append_left (ch.map Prod.fst)

/-- The post-pass appends exactly those input items (with their estimated
sizes) whose paths occur in neither `chosen` nor the initial `remaining`,
provided the input paths are distinct (as those produced by `os.walk` are). -/
theorem postPass_eq (f : ℚ) (ch : List (PathStr × ℕ)) :
    ∀ (l rem : List (PathStr × ℕ)), (l.map Prod.fst).Nodup →
      postPass f ch l rem =
        rem ++ (l.filter (fun x =>
            !(ch.any (fun y => y.1 == x.1) || rem.any (fun y => y.1 == x.1)))).map
          (fun x => (x.1, estSize f x.2)) := by
  intro l
  induction l with
  | nil => intro rem h; simp [postPass]
  | cons x rest ih =>
    obtain ⟨p, s⟩ := x
    intro rem h
    simp only [List.map_cons, List.nodup_cons] at h
    obtain ⟨hp, hnd⟩ := h
    simp only [postPass]
    split
    · rename_i hcond
      rw [ih rem hnd, List.filter_cons_of_neg (by simp [hcond])]
    · rename_i hcond
      have hcf : (ch.any (fun y => y.1 == p) || rem.any (fun y => y.1 == p)) = false :=
        Bool.eq_false_iff.mpr hcond
      rw [ih (rem ++ [(p, estSize f s)]) hnd]
      have hpred : ∀ a ∈ rest,
          (!(ch.any (fun y => y.1 == a.1) ||
              (rem ++ [(p, estSize f s)]).any (fun y => y.1 == a.1))) =
          (!(ch.any (fun y => y.1 == a.1) || rem.any (fun y => y.1 == a.1))) := by
        intro a ha
        have hne : p ≠ a.1 := by
          intro hcontra
          exact hp (hcontra ▸ List.mem_map_of_mem Prod.fst ha)
        have hb : (p == a.1) = false := beq_eq_false_iff_ne.mpr hne
        simp [List.any_append, hb]
      rw [List.filter_congr hpred, List.filter_cons_of_pos (by simp [hcf])]
      simp

/-- Partition core: on path-distinct input the paths of `chosen` and the
final `remaining` are a permutation of the input paths, with no duplicates,
and the lengths add up. -/
theorem select_partition_core (f : ℚ) (maxB : ℕ) (items : List (PathStr × ℕ))
    (h : (items.map Prod.fst).Nodup) :
    ((select f maxB items).1.map Prod.fst ++
        (select f maxB items).2.map Prod.fst).Perm (items.map Prod.fst) ∧
    ((select f maxB items).1.map Prod.fst ++
        (select f maxB items).2.map Prod.fst).Nodup ∧
    (select f maxB items).1.length + (select f maxB items).2.length = items.length := by
  simp only [select]
  obtain ⟨v, t, hvt, hperm⟩ := selLoop_split f maxB items [] [] 0
  generalize hch : (selLoop f maxB items [] [] 0).1 = ch at *
  generalize hrem : (selLoop f maxB items [] [] 0).2.1 = rem at *
  simp only [List.map_nil, List.nil_append] at hperm
  have hitems : items.map Prod.fst = v.map Prod.fst ++ t.map Prod.fst := by
    rw [hvt, List.map_append]
  have hvmem : ∀ x ∈ v,
      (ch.any (fun y => y.1 == x.1) || rem.any (fun y => y.1 == x.1)) = true := by
    intro x hx
    have hx1 : x.1 ∈ ch.map Prod.fst ++ rem.map Prod.fst :=
      hperm.mem_iff.mpr (List.mem_map_of_mem Prod.fst hx)
    rcases List.mem_append.mp hx1 with hin | hin
    · obtain ⟨y, hy, hyx⟩ := List.mem_map.mp hin
      have hany : ch.any (fun y => y.1 == x.1) = true :=
        List.any_eq_true.mpr ⟨y, hy, by simp [hyx]⟩
      simp [hany]
    · obtain ⟨y, hy, hyx⟩ := List.mem_map.mp hin
      have hany : rem.any (fun y => y.1 == x.1) = true :=
        List.any_eq_true.mpr ⟨y, hy, by simp [hyx]⟩
      simp [hany]
  have hdisj : (v.map Prod.fst).Disjoint (t.map Prod.fst) :=
    (List.nodup_append.mp (hitems ▸ h)).2.2
  have htmem : ∀ x ∈ t,
      (ch.any (fun y => y.1 == x.1) || rem.any (fun y => y.1 == x.1)) = false := by
    intro x hx
    have hxt : x.1 ∈ t.map Prod.fst := List.mem_map_of_mem Prod.fst hx
    have hxv : x.1 ∉ v.map Prod.fst := fun hcontra => hdisj hcontra hxt
    have hx1 : x.1 ∉ ch.map Prod.fst ++ rem.map Prod.fst := fun hcontra =>
      hxv (hperm.mem_iff.mp hcontra)
    refine Bool.or_eq_false_iff.mpr ⟨?_, ?_⟩
    · by_contra hany
      obtain ⟨y, hy, hyx⟩ := List.any_eq_true.mp (Bool.of_not_eq_false hany)
      exact hx1 (List.mem_append.mpr (Or.inl (List.mem_map.mpr ⟨y, hy, by
        simpa using hyx⟩)))
    · by_contra hany
      obtain ⟨y, hy, hyx⟩ := List.any_eq_true.mp (Bool.of_not_eq_false hany)
      exact hx1 (List.mem_append.mpr (Or.inr (List.mem_map.mpr ⟨y, hy, by
        simpa using hyx⟩)))
  have hpost : postPass f ch items rem =
      rem ++ t.map (fun x => (x.1, estSize f x.2)) := by
    rw [postPass_eq f ch items rem h]
    congr 1
    rw [hvt, List.filter_append,
      List.filter_eq_nil_iff.mpr (fun a ha => by simp [hvmem a ha]),
      List.filter_eq_self.mpr (fun a ha => by simp [htmem a ha]),
      List.nil_append]
  rw [hpost]
  have hmapt : (t.map (fun x => (x.1, estSize f x.2))).map Prod.fst = t.map Prod.fst := by
    simp [List.map_map, Function.comp]
  have hbig : (ch.map Prod.fst ++
      (rem ++ t.map (fun x => (x.1, estSize f x.2))).map Prod.fst).Perm
      (items.map Prod.fst) := by
    rw [List.map_append, hmapt, hitems, ← List.append_assoc]
    exact hperm.append_right (t.map Prod.fst)
  refine ⟨hbig, hbig.symm.nodup h, ?_⟩
  have hlen := hbig.length_eq
  simp only [List.length_append, List.length_map] at hlen ⊢
  omega


/-- C3: on path-distinct input (as produced by `os.walk`), the Selector's
`(chosen, remaining)` pair is an exhaustive partition of the input items:
the combined path lists are a permutation of the input paths (no omission,
no duplication, no item in both lists) and the lengths add up — including
items never visited because of the early budget break, which the post-pass
still classifies into `remaining`. -/
theorem selector_partition (f : ℚ) (maxB : ℕ) (items : List (PathStr × ℕ))
    (h : (items.map Prod.fst).Nodup) :
    ((select f maxB items).1.map Prod.fst ++
        (select f maxB items).2.map Prod.fst).Perm (items.map Prod.fst) ∧
    ((select f maxB items).1.map Prod.fst ++
        (select f maxB items).2.map Prod.fst).Nodup ∧
    (select f maxB items).1.length + (select f maxB items).2.length = items.length :=
  select_partition_core f maxB items h

/-- Witness for C3 at a concrete three-item batch with distinct paths. -/
theorem selector_partition_witness :
    ((["a", "b", "c"] : List String)).Nodup ∧
    (((select (compressionFactor 75) 30 [("a", 100), ("b", 200), ("c", 0)]).1.map Prod.fst ++
        (select (compressionFactor 75) 30 [("a", 100), ("b", 200), ("c", 0)]).2.map
          Prod.fst).Perm
        ([("a", 100), ("b", 200), ("c", 0)].map Prod.fst) ∧
      ((select (compressionFactor 75) 30 [("a", 100), ("b", 200), ("c", 0)]).1.map Prod.fst ++
        (select (compressionFactor 75) 30 [("a", 100), ("b", 200), ("c", 0)]).2.map
          Prod.fst).Nodup ∧
      (select (compressionFactor 75) 30 [("a", 100), ("b", 200), ("c", 0)]).1.length +
        (select (compressionFactor 75) 30 [("a", 100), ("b", 200), ("c", 0)]).2.length = 3) :=
  ⟨by decide, selector_partition (compressionFactor 75) 30
    [("a", 100), ("b", 200), ("c", 0)] (by decide)⟩

theorem estSize_zero (f : ℚ) : estSize f 0 = 0 := by
  simp [estSize]

/-- With a zero budget the selection loop admits exactly the first item whose
estimated size is zero (and then breaks); everything before it is skipped
into `remaining`. -/
theorem selLoop_zero_budget (f : ℚ) (l : List (PathStr × ℕ)) :
    ∀ ch rem : List (PathStr × ℕ),
      (selLoop f 0 l ch rem 0).1 =
        ch ++ ((l.find? (fun x => estSize f x.2 == 0)).map
          (fun x => (x.1, estSize f x.2))).toList := by
  induction l with
  | nil => intro ch rem; simp [selLoop]
  | cons x rest ih =>
    obtain ⟨p, s⟩ := x
    intro ch rem
    simp only [selLoop]
    by_cases he : estSize f s = 0
    · rw [if_neg (by omega), if_pos (by omega)]
      simp [List.find?_cons, he]
    · rw [if_pos (by omega)]
      rw [ih ch (rem ++ [(p, estSize f s)])]
      have hpf : ((fun x => estSize f x.2 == 0) (p, s)) = false := by
        simpa using he
      simp [List.find?_cons, hpf]

/-- C4 counterexample: with budget 0 and two items of estimated size 0, only
the first zero-estimate item reaches `chosen` (the loop then breaks because
the total has reached the budget); the second zero-estimate item ends in
`remaining`, contradicting the claim that every zero-estimate item is
placed in `chosen`. -/
theorem budget_zero_claim_cex :
    estSize (compressionFactor 75) 0 = 0 ∧
    select (compressionFactor 75) 0 [("a", 0), ("b", 0)] = ([("a", 0)], [("b", 0)]) := by
  refine ⟨estSize_zero _, ?_⟩
  simp [select, selLoop, postPass, estSize_zero]

/-- C4 (amended): with budget 0, `chosen` consists of exactly the first item
in shuffle order whose estimated size is 0 (empty if there is none), and
every item with a nonzero estimated size ends in `remaining` (on
path-distinct input). -/
theorem budget_zero_behavior (f : ℚ) (items : List (PathStr × ℕ))
    (h : (items.map Prod.fst).Nodup) :
    (select f 0 items).1 =
      ((items.find? (fun x => estSize f x.2 == 0)).map
        (fun x => (x.1, estSize f x.2))).toList ∧
    ∀ x ∈ items, estSize f x.2 ≠ 0 → x.1 ∈ (select f 0 items).2.map Prod.fst := by
  have hch : (select f 0 items).1 =
      ((items.find? (fun x => estSize f x.2 == 0)).map
        (fun x => (x.1, estSize f x.2))).toList := by
    simp only [select]
    rw [selLoop_zero_budget f items [] [], List.nil_append]
  refine ⟨hch, ?_⟩
  intro x hx hne
  have hcore := select_partition_core f 0 items h
  have hx1 : x.1 ∈ (select f 0 items).1.map Prod.fst ++
      (select f 0 items).2.map Prod.fst :=
    hcore.1.mem_iff.mpr (List.mem_map_of_mem Prod.fst hx)
  rcases List.mem_append.mp hx1 with hin | hin
  · exfalso
    rw [hch] at hin
    cases hfind : items.find? (fun x => estSize f x.2 == 0) with
    | none => rw [hfind] at hin; simp at hin
    | some y =>
      rw [hfind] at hin
      simp at hin
      have hy := List.mem_of_find?_eq_some hfind
      have hpy : estSize f y.2 = 0 := by simpa using List.find?_some hfind
      have hxy : x = y := List.inj_on_of_nodup_map h hx hy (by simpa using hin)
      exact hne (hxy ▸ hpy)
  · exact hin

/-- Witness for the amended C4 at a concrete two-item batch: one nonzero
estimate, one zero estimate. -/
theorem budget_zero_behavior_witness :
    ((([("a", 300), ("z", 0)] : List (PathStr × ℕ)).map Prod.fst).Nodup) ∧
    ((select (compressionFactor 75) 0 [("a", 300), ("z", 0)]).1 =
        ((([("a", 300), ("z", 0)] : List (PathStr × ℕ)).find?
            (fun x => estSize (compressionFactor 75) x.2 == 0)).map
          (fun x => (x.1, estSize (compressionFactor 75) x.2))).toList ∧
      ∀ x ∈ ([("a", 300), ("z", 0)] : List (PathStr × ℕ)),
        estSize (compressionFactor 75) x.2 ≠ 0 →
          x.1 ∈ (select (compressionFactor 75) 0 [("a", 300), ("z", 0)]).2.map Prod.fst) :=
  ⟨by decide, budget_zero_behavior (compressionFactor 75) [("a", 300), ("z", 0)] (by decide)⟩

/-- The selection loop factors through the estimated sizes: chosen,
remaining and total are images of the size-level loop. -/
theorem selLoop_map_est (f : ℚ) (maxB : ℕ) (l : List (PathStr × ℕ)) :
    ∀ (ch rem : List (PathStr × ℕ)) (tot : ℕ),
      (selLoop f maxB l ch rem tot).1.map Prod.snd =
        (selLoopE maxB (l.map (fun x => estSize f x.2)) (ch.map Prod.snd)
          (rem.map Prod.snd) tot).1 ∧
      (selLoop f maxB l ch rem tot).2.1.map Prod.snd =
        (selLoopE maxB (l.map (fun x => estSize f x.2)) (ch.map Prod.snd)
          (rem.map Prod.snd) tot).2.1 ∧
      (selLoop f maxB l ch rem tot).2.2 =
        (selLoopE maxB (l.map (fun x => estSize f x.2)) (ch.map Prod.snd)
          (rem.map Prod.snd) tot).2.2 := by
  induction l with
  | nil => intro ch rem tot; exact ⟨rfl, rfl, rfl⟩
  | cons x rest ih =>
    obtain ⟨p, s⟩ := x
    intro ch rem tot
    simp only [List.map_cons, selLoop, selLoopE]
    by_cases h1 : tot + estSize f s > maxB
    · rw [if_pos h1, if_pos h1]
      have h := ih ch (rem ++ [(p, estSize f s)]) tot
      simpa [List.map_append] using h
    · rw [if_neg h1, if_neg h1]
      by_cases h2 : tot + estSize f s ≥ maxB
      · rw [if_pos h2, if_pos h2]
        exact ⟨by simp, rfl, rfl⟩
      · rw [if_neg h2, if_neg h2]
        have h := ih (ch ++ [(p, estSize f s)]) rem (tot + estSize f s)
        simpa [List.map_append] using h

/-- Every entry of the post-pass output either was already in `remaining`
or is an input item tagged with its estimated size. -/
theorem postPass_mem (f : ℚ) (ch : List (PathStr × ℕ)) :
    ∀ (l rem : List (PathStr × ℕ)) (y : PathStr × ℕ), y ∈ postPass f ch l rem →
      y ∈ rem ∨ ∃ x, x ∈ l ∧ y.2 = estSize f x.2 := by
  intro l
  induction l with
  | nil => intro rem y hy; exact Or.inl (by simpa [postPass] using hy)
  | cons x rest ih =>
    obtain ⟨p, s⟩ := x
    intro rem y hy
    simp only [postPass] at hy
    split at hy
    · rcases ih rem y hy with h | ⟨z, hz, h2⟩
      · exact Or.inl h
      · exact Or.inr ⟨z, List.mem_cons_of_mem _ hz, h2⟩
    · rcases ih (rem ++ [(p, estSize f s)]) y hy with h | ⟨z, hz, h2⟩
      · rcases List.mem_append.mp h with h' | h'
        · exact Or.inl h'
        · refine Or.inr ⟨(p, s), List.mem_cons_self _ _, ?_⟩
          have hyp : y = (p, estSize f s) := by simpa using h'
          simp [hyp]
      · exact Or.inr ⟨z, List.mem_cons_of_mem _ hz, h2⟩

/-- Estimated size of a 10MB file at quality 75: factor 1/4, 2.5MB. -/
theorem estSize_ten_mb : estSize (compressionFactor 75) 10485760 = 2621440 := by
  have hf : compressionFactor 75 = 1 / 4 := by
    rw [compressionFactor, max_eq_right (by norm_num)]
    norm_num
  rw [estSize, hf]
  norm_num
  rfl

/-- C8: with 10 candidate files of 10MB each, quality 75 (factor 1/4,
estimate 2621440 bytes each) and a 12MB (12582912-byte) budget, the Selector
admits exactly 4 items (in particular 4 or 5, as claimed) for every shuffle
order; the cumulative estimate of the chosen set is within the budget and
adding any remaining item's estimate would exceed it. -/
theorem scenario_ten_files (l : List (PathStr × ℕ))
    (hlen : l.length = 10) (hsz : ∀ x ∈ l, x.2 = 10485760) :
    ((select (compressionFactor 75) 12582912 l).1.length = 4 ∨
      (select (compressionFactor 75) 12582912 l).1.length = 5) ∧
    (select (compressionFactor 75) 12582912 l).1.length = 4 ∧
    sumSnd (select (compressionFactor 75) 12582912 l).1 ≤ 12582912 ∧
    ∀ x ∈ (select (compressionFactor 75) 12582912 l).2,
      12582912 < sumSnd (select (compressionFactor 75) 12582912 l).1 + x.2 := by
  have hmap : l.map (fun x => estSize (compressionFactor 75) x.2) =
      List.replicate 10 2621440 := by
    refine List.eq_replicate_iff.mpr ⟨by simp [hlen], ?_⟩
    intro b hb
    obtain ⟨x, hx, rfl⟩ := List.mem_map.mp hb
    rw [hsz x hx, estSize_ten_mb]
  have hE : selLoopE 12582912 (List.replicate 10 2621440) [] [] 0 =
      (List.replicate 4 2621440, List.replicate 6 2621440, 10485760) := by decide
  have hm := selLoop_map_est (compressionFactor 75) 12582912 l [] [] 0
  rw [hmap] at hm
  simp only [List.map_nil] at hm
  rw [hE] at hm
  obtain ⟨hm1, hm2, hm3⟩ := hm
  have hchlen : (select (compressionFactor 75) 12582912 l).1.length = 4 := by
    simp only [select]
    have h := congrArg List.length hm1
    simpa using h
  have hsum : sumSnd (select (compressionFactor 75) 12582912 l).1 = 10485760 := by
    simp only [select, sumSnd]
    rw [hm1]
    decide
  refine ⟨Or.inl hchlen, hchlen, by rw [hsum]; omega, ?_⟩
  intro x hx
  rw [hsum]
  have hx2 : x.2 = 2621440 := by
    simp only [select] at hx
    rcases postPass_mem (compressionFactor 75) _ l _ x hx with h | ⟨z, hz, h2⟩
    · have hmem : x.2 ∈ List.replicate 6 2621440 := by
        have hm2x : List.map Prod.snd
            (selLoop (compressionFactor 75) 12582912 l [] [] 0).2.1 =
            List.replicate 6 2621440 := hm2
        rw [← hm2x]
        exact List.mem_map_of_mem Prod.snd h
      simpa using hmem
    · rw [h2, hsz z hz, estSize_ten_mb]
  omega

/-- Witness for C8 at a concrete ten-item batch. -/
theorem scenario_ten_files_witness :
    (tenItems.length = 10 ∧ ∀ x ∈ tenItems, x.2 = 10485760) ∧
    (((select (compressionFactor 75) 12582912 tenItems).1.length = 4 ∨
        (select (compressionFactor 75) 12582912 tenItems).1.length = 5) ∧
      (select (compressionFactor 75) 12582912 tenItems).1.length = 4 ∧
      sumSnd (select (compressionFactor 75) 12582912 tenItems).1 ≤ 12582912 ∧
      ∀ x ∈ (select (compressionFactor 75) 12582912 tenItems).2,
        12582912 < sumSnd (select (compressionFactor 75) 12582912 tenItems).1 + x.2) :=
  ⟨⟨by decide, by decide⟩,
    scenario_ten_files tenItems (by decide) (by decide)⟩

theorem bName_injective : Function.Injective bName := by
  intro a b h
  have h4 := congrArg (fun s => s.data.length) h
  simpa [bName] using h4

/-- The name resolved by the writer's collision loop never already exists:
either the candidate is free, or the first free suffixed name is picked (the
bounded search is exhaustive because an injective suffix scheme cannot have
`fs.length + 1` distinct names all inside `fs`). -/
theorem resolveName_not_mem (fs : List String) (cand : String) (mk : ℕ → String)
    (hinj : Function.Injective mk) : resolveName fs cand mk ∉ fs := by
  unfold resolveName
  by_cases hc : fs.contains cand
  · rw [if_pos hc]
    cases hfind : (List.range (fs.length + 1)).find?
        (fun k => !(fs.contains (mk (k + 1)))) with
    | some k =>
      have hp := List.find?_some hfind
      simpa using hp
    | none =>
      exfalso
      have hall : ∀ k ∈ List.range (fs.length + 1), mk (k + 1) ∈ fs := by
        intro k hk
        have hnp := List.find?_eq_none.mp hfind k hk
        simpa using hnp
      have hinj2 : Function.Injective (fun k => mk (k + 1)) := by
        intro a b hab
        have := hinj hab
        omega
      have hnd : ((List.range (fs.length + 1)).map (fun k => mk (k + 1))).Nodup :=
        (List.nodup_range _).map hinj2
      have hsub : ((List.range (fs.length + 1)).map (fun k => mk (k + 1))).toFinset ⊆
          fs.toFinset := by
        intro a ha
        rw [List.mem_toFinset] at ha ⊢
        obtain ⟨k, hk, rfl⟩ := List.mem_map.mp ha
        exact hall k hk
      have hcard1 : ((List.range (fs.length + 1)).map (fun k => mk (k + 1))).toFinset.card =
          fs.length + 1 := by
        rw [List.toFinset_card_of_nodup hnd]
        simp
      have hcard2 : fs.toFinset.card ≤ fs.length := fs.toFinset_card_le
      have hle := Finset.card_le_card hsub
      omega
  · rw [if_neg hc]
    intro hmem
    exact hc (by simpa using hmem)

/-- C9: the writer never overwrites: every resolved output name is new at
the time it is written and all written names are pairwise distinct — in
particular two items that would generate the same output filename end up as
two distinct files, the collision resolved through the incrementing suffix
scheme of `resolveName`. -/
theorem writer_distinct_files :
    ∀ (items : List (String × (ℕ → String))),
      (∀ x ∈ items, Function.Injective x.2) →
      ∀ fs : List String,
        (writeLoop items fs).Nodup ∧ ∀ n ∈ writeLoop items fs, n ∉ fs := by
  intro items
  induction items with
  | nil => intro h fs; exact ⟨List.nodup_nil, by simp [writeLoop]⟩
  | cons it rest ih =>
    obtain ⟨cand, mk⟩ := it
    intro h fs
    have hinj : Function.Injective mk := h _ (List.mem_cons_self _ _)
    have hout : resolveName fs cand mk ∉ fs := resolveName_not_mem fs cand mk hinj
    obtain ⟨hnd, hfresh⟩ :=
      ih (fun x hx => h x (List.mem_cons_of_mem _ hx)) (resolveName fs cand mk :: fs)
    simp only [writeLoop]
    constructor
    · refine List.nodup_cons.mpr ⟨?_, hnd⟩
      intro hcontra
      exact (hfresh _ hcontra) (List.mem_cons_self _ _)
    · intro n hn
      rcases List.mem_cons.mp hn with rfl | hn'
      · exact hout
      · intro hcontra
        exact hfresh n hn' (List.mem_cons_of_mem _ hcontra)

/-- Witness for C9: two items generating the same candidate name "a" on an
empty output directory end up as two distinct files. -/
theorem writer_distinct_files_witness :
    (∀ x ∈ ([("a", bName), ("a", bName)] : List (String × (ℕ → String))),
      Function.Injective x.2) ∧
    ((writeLoop [("a", bName), ("a", bName)] []).Nodup ∧
      ∀ n ∈ writeLoop [("a", bName), ("a", bName)] [], n ∉ ([] : List String)) := by
  have hinjs : ∀ x ∈ ([("a", bName), ("a", bName)] : List (String × (ℕ → String))),
      Function.Injective x.2 := by
    intro x hx
    rcases List.mem_cons.mp hx with rfl | hx'
    · exact bName_injective
    · rcases List.mem_cons.mp hx' with rfl | hx''
      · exact bName_injective
      · exact absurd hx'' (List.not_mem_nil x)
  exact ⟨hinjs, writer_distinct_files [("a", bName), ("a", bName)] hinjs []⟩
